import Mathlib

/-!
Verification development for the cdktf-aws-codebuild-gha-runners repository.

The repository's own code (src/stacks/my-stack.ts) builds a construct tree of
resource nodes whose inputs mix literal values, deferred Tokens (references to
other resources' runtime attributes, e.g. `sampleProject.name`), and foreign
CI expressions (`Fn.rawString("...${{ github.run_id }}...")`).  The
deferred-reference resolution and dependency-graph engine that processes such
trees (Token substitution, reference-graph construction, cycle/dangling
detection, document emission) lives in the cdktf library and is not part of
the repository's sources; those components are therefore modelled from the
specification, while the concrete stack (its nodes, inputs and tokens) is
embedded directly from src/stacks/my-stack.ts.
-/

namespace GhaRunners

/-! ## Data model (spec §3) -/

/-- Modelled from the spec: a Token is a placeholder for the eventual runtime
attribute of a resource node, scoped to `(ownerResourceId, attributeName)`.
The engine defining it (cdktf) is not under src/. -/
structure Token where
  ownerResourceId : String
  attributeName : String
deriving DecidableEq

/-- Modelled from the spec: a ForeignExpression carries raw text in a remote
system's own template syntax; it is opaque to the resolver. -/
structure ForeignExpression where
  raw : String
deriving DecidableEq

/-- Literal scalar values (string/number/bool/null), per spec §3 Value. -/
inductive Lit where
  | str (s : String)
  | num (n : Int)
  | bool (b : Bool)
  | null
deriving DecidableEq

/-- Modelled from the spec (§4.1): a composed string is kept as an ordered
list of typed parts (literal fragments, Tokens, ForeignExpressions) until
resolution, never eagerly concatenated. -/
inductive StrPart where
  | lit (s : String)
  | tok (t : Token)
  | foreign (f : ForeignExpression)
deriving DecidableEq

mutual
/-- Modelled from the spec (§3): the recursive Value sum type walked by the
resolver: Literal | Token | ForeignExpression | composed string | ordered
sequence | ordered mapping. -/
inductive Value where
  | lit (l : Lit)
  | tok (t : Token)
  | foreign (f : ForeignExpression)
  | composed (parts : List StrPart)
  | seq (xs : ValueList)
  | map (kvs : KVList)

/-- Ordered sequence of Values. -/
inductive ValueList where
  | nil
  | cons (v : Value) (rest : ValueList)

/-- Ordered mapping of string keys to Values (insertion order preserved). -/
inductive KVList where
  | nil
  | cons (k : String) (v : Value) (rest : KVList)
end

mutual
/-- Resolved documents: like Value but with every Token and ForeignExpression
replaced by a plain string scalar (spec §4.3 ResolvedDocument). -/
inductive RVal where
  | str (s : String)
  | num (n : Int)
  | bool (b : Bool)
  | null
  | seq (xs : RList)
  | map (kvs : RKVList)

/-- Ordered sequence of resolved values. -/
inductive RList where
  | nil
  | cons (v : RVal) (rest : RList)

/-- Ordered mapping of resolved values. -/
inductive RKVList where
  | nil
  | cons (k : String) (v : RVal) (rest : RKVList)
end

/-! ## Resolver (spec §4.3) -/

/-- Modelled from the spec: the target system's native interpolation syntax
for a Token — a string referencing `ownerResourceId.attributeName`. -/
def interp (t : Token) : String :=
  "$\x7b" ++ t.ownerResourceId ++ "." ++ t.attributeName ++ "\x7d"

/-- Resolve one part of a composed string: literals unchanged, Tokens to
their interpolation syntax, ForeignExpressions to their raw text verbatim. -/
def resolvePart : StrPart → String
  | .lit s => s
  | .tok t => interp t
  | .foreign f => f.raw

/-- Concatenate the resolved parts of a composed string in declared order. -/
def resolveParts : List StrPart → String
  | [] => ""
  | p :: ps => resolvePart p ++ resolveParts ps

mutual
/-- Modelled from the spec (§4.3): the resolver walk. Literals pass through
unchanged, a Token becomes its native interpolation string, a
ForeignExpression becomes its raw string verbatim with no escaping, composed
strings concatenate in declared order, sequences and mappings recurse
preserving order and key set. -/
def resolveValue : Value → RVal
  | .lit (.str s) => .str s
  | .lit (.num n) => .num n
  | .lit (.bool b) => .bool b
  | .lit .null => .null
  | .tok t => .str (interp t)
  | .foreign f => .str f.raw
  | .composed ps => .str (resolveParts ps)
  | .seq xs => .seq (resolveList xs)
  | .map kvs => .map (resolveKVs kvs)

/-- Resolve each element of a sequence, preserving order. -/
def resolveList : ValueList → RList
  | .nil => .nil
  | .cons v rest => .cons (resolveValue v) (resolveList rest)

/-- Resolve each entry of a mapping, preserving key order. -/
def resolveKVs : KVList → RKVList
  | .nil => .nil
  | .cons k v rest => .cons k (resolveValue v) (resolveKVs rest)
end

mutual
/-- Re-embed a resolved document as a Value containing only literals (used to
state that resolution is idempotent: resolving the resolved document again
changes nothing). -/
def toValue : RVal → Value
  | .str s => .lit (.str s)
  | .num n => .lit (.num n)
  | .bool b => .lit (.bool b)
  | .null => .lit .null
  | .seq xs => .seq (toValueList xs)
  | .map kvs => .map (toValueKVs kvs)

/-- Re-embed a resolved sequence. -/
def toValueList : RList → ValueList
  | .nil => .nil
  | .cons v rest => .cons (toValue v) (toValueList rest)

/-- Re-embed a resolved mapping. -/
def toValueKVs : RKVList → KVList
  | .nil => .nil
  | .cons k v rest => .cons k (toValue v) (toValueKVs rest)
end

/-! ## Token and ForeignExpression occurrence scans -/

/-- Tokens occurring in one composed-string part. -/
def partTokens : StrPart → List Token
  | .lit _ => []
  | .tok t => [t]
  | .foreign _ => []

mutual
/-- All Tokens occurring (recursively) in a Value, in traversal order. -/
def valueTokens : Value → List Token
  | .lit _ => []
  | .tok t => [t]
  | .foreign _ => []
  | .composed ps => ps.flatMap partTokens
  | .seq xs => listTokens xs
  | .map kvs => kvsTokens kvs

/-- Tokens of a sequence. -/
def listTokens : ValueList → List Token
  | .nil => []
  | .cons v rest => valueTokens v ++ listTokens rest

/-- Tokens of a mapping. -/
def kvsTokens : KVList → List Token
  | .nil => []
  | .cons _ v rest => valueTokens v ++ kvsTokens rest
end

/-- ForeignExpressions occurring in one composed-string part. -/
def partForeigns : StrPart → List ForeignExpression
  | .lit _ => []
  | .tok _ => []
  | .foreign f => [f]

mutual
/-- All ForeignExpressions occurring (recursively) in a Value. -/
def valueForeigns : Value → List ForeignExpression
  | .lit _ => []
  | .tok _ => []
  | .foreign f => [f]
  | .composed ps => ps.flatMap partForeigns
  | .seq xs => listForeigns xs
  | .map kvs => kvsForeigns kvs

/-- ForeignExpressions of a sequence. -/
def listForeigns : ValueList → List ForeignExpression
  | .nil => []
  | .cons v rest => valueForeigns v ++ listForeigns rest

/-- ForeignExpressions of a mapping. -/
def kvsForeigns : KVList → List ForeignExpression
  | .nil => []
  | .cons _ v rest => valueForeigns v ++ kvsForeigns rest
end

/-! ## Resource nodes and the construct tree (spec §3) -/

/-- Modelled from the spec: a Resource Node has an id unique within the tree,
a type, an ordered mapping of inputs, and output attribute names (each output
attribute `a` is exposed to other nodes as `Token ⟨id, a⟩`). -/
structure ResourceNode where
  id : String
  type : String
  inputs : KVList
  outputs : List String

/-- A construct tree is the ordered list of its resource nodes. -/
abbrev ConstructTree : Type := List ResourceNode

/-- The node ids of a tree, in declaration order. -/
def nodeIds (tree : ConstructTree) : List String :=
  List.map (fun n => n.id) tree

/-- All Tokens occurring in a node's inputs. -/
def nodeTokens (n : ResourceNode) : List Token :=
  kvsTokens n.inputs

/-! ## Reference Graph construction (spec §4.2) -/

/-- Modelled from the spec: the Reference Graph as an adjacency list — for
each node, the distinct owner ids of the Tokens in its inputs (multiple
references to one owner collapse to a single edge). -/
abbrev Graph : Type := List (String × List String)

/-- Dependencies (outgoing edges) of one node: owners of its input Tokens,
deduplicated. -/
def edgeTargets (n : ResourceNode) : List String :=
  (List.map (fun t => t.ownerResourceId) (nodeTokens n)).dedup

/-- The raw adjacency structure of the Reference Graph. -/
def buildGraphRaw (tree : ConstructTree) : Graph :=
  List.map (fun n => (n.id, edgeTargets n)) tree

/-- Adjacency lookup in a graph. -/
def adjOf (g : Graph) (a : String) : List String :=
  (List.lookup a g).getD []

/-- Edge test: the graph has edge `a → b`. -/
def hasEdge (g : Graph) (a b : String) : Bool :=
  (adjOf g a).contains b

/-- A chain of consecutive edges along a list of node ids. -/
def chainB (g : Graph) : List String → Bool
  | [] => true
  | [_] => true
  | a :: b :: rest => hasEdge g a b && chainB g (b :: rest)

/-- `isCyclePath g c`: the nonempty list `c` follows edges consecutively and
its last element has an edge back to its first — i.e. `c` names a full cycle
path in the graph, as an ordered list of node ids. -/
def isCyclePath (g : Graph) : List String → Bool
  | [] => false
  | x :: rest => chainB g (x :: rest) && hasEdge g ((x :: rest).getLastD x) x

/-- All subsequences of a list. -/
def subseqs {α : Type} : List α → List (List α)
  | [] => [[]]
  | a :: l => (subseqs l).map (fun s => a :: s) ++ subseqs l

/-- All ways of inserting an element into a list. -/
def insertsOf {α : Type} (a : α) : List α → List (List α)
  | [] => [[a]]
  | b :: l => (a :: b :: l) :: (insertsOf a l).map (fun s => b :: s)

/-- All permutations of a list. -/
def permsOf {α : Type} : List α → List (List α)
  | [] => [[]]
  | a :: l => (permsOf l).flatMap (insertsOf a)

/-- Candidate simple cycles: every permutation of every subsequence of the
graph's deduplicated node ids (cycle detection searches simple cycles
exhaustively; the spec's three-color DFS likewise reports a cycle iff a
simple cycle exists). -/
def cycleCandidates (g : Graph) : List (List String) :=
  (subseqs (List.map Prod.fst g).dedup).flatMap permsOf

/-- Modelled from the spec (§4.2): cycle detection — return some cycle path
when the Reference Graph has one, none when it is acyclic. -/
def findCycle (g : Graph) : Option (List String) :=
  (cycleCandidates g).find? (fun c => isCyclePath g c)

/-- A node referencing its own output (self-loop), spec §4.2. -/
def selfLoop (n : ResourceNode) : Bool :=
  (edgeTargets n).contains n.id

/-! ## Topological order (spec §4.2) -/

/-- One pass of stable topological selection: the first pending node (in
declaration order) all of whose dependencies are already placed or are not
pending nodes of this graph. -/
def pickReady (g : Graph) (placed pending : List String) : Option String :=
  pending.find? (fun a =>
    (adjOf g a).all (fun b => placed.contains b || !(pending.contains b)))

/-- Fueled topological ordering loop (fuel bounds the number of rounds). -/
def topoGo (g : Graph) : Nat → List String → List String → List String
  | 0, placed, pending => placed.reverse ++ pending
  | fuel + 1, placed, pending =>
    match pickReady g placed pending with
    | some a => topoGo g fuel (a :: placed) (pending.erase a)
    | none => placed.reverse ++ pending

/-- Modelled from the spec (§4.2): topological order of an acyclic Reference
Graph, stable by original declaration order. -/
def topoOrder (g : Graph) : List String :=
  topoGo g (List.map Prod.fst g).length [] (List.map Prod.fst g)

/-! ## Errors (spec §6, §7) -/

/-- Modelled from the spec: the synthesis error taxonomy. `dangling` carries
the offending attribute path, `selfRef` the offending node id, `cyclic` the
full cycle path as an ordered list of node ids. -/
inductive SynthError where
  | dangling (path : List String)
  | selfRef (nodeId : String)
  | cyclic (cycle : List String)
deriving DecidableEq

/-! ## Dangling-reference detection (spec §4.1, §4.3) -/

/-- Does a composed-string part hold a Token whose owner is absent? -/
def partDangles (ids : List String) : StrPart → Bool
  | .lit _ => false
  | .tok t => !(ids.contains t.ownerResourceId)
  | .foreign _ => false

mutual
/-- Modelled from the spec (§4.1): walk a Value tracking the attribute path;
return the path of the first Token whose owning resource id does not exist in
the tree (`ids`), or none. -/
def danglingInValue (ids : List String) (path : List String) : Value → Option (List String)
  | .lit _ => none
  | .tok t => if ids.contains t.ownerResourceId then none else some path
  | .foreign _ => none
  | .composed ps => if ps.any (fun p => partDangles ids p) then some path else none
  | .seq xs => danglingInList ids path 0 xs
  | .map kvs => danglingInKVs ids path kvs

/-- Dangling scan of a sequence, extending the path with element indices. -/
def danglingInList (ids : List String) (path : List String) (i : Nat) : ValueList → Option (List String)
  | .nil => none
  | .cons v rest =>
    match danglingInValue ids (path ++ [toString i]) v with
    | some p => some p
    | none => danglingInList ids path (i + 1) rest

/-- Dangling scan of a mapping, extending the path with the keys. -/
def danglingInKVs (ids : List String) (path : List String) : KVList → Option (List String)
  | .nil => none
  | .cons k v rest =>
    match danglingInValue ids (path ++ [k]) v with
    | some p => some p
    | none => danglingInKVs ids path rest
end

/-- Dangling scan of a whole node (paths start at the node id). -/
def danglingInNode (ids : List String) (n : ResourceNode) : Option (List String) :=
  danglingInKVs ids [n.id] n.inputs

/-- Scan a list of nodes against the tree's id set for a dangling path. -/
def findDanglingGo (ids : List String) : List ResourceNode → Option (List String)
  | [] => none
  | n :: rest =>
    match danglingInNode ids n with
    | some p => some p
    | none => findDanglingGo ids rest

/-- First dangling-reference path anywhere in the tree, or none. -/
def findDangling (tree : ConstructTree) : Option (List String) :=
  findDanglingGo (nodeIds tree) tree

/-! ## Graph building and full resolution (spec §4.2, §4.3) -/

/-- Modelled from the spec (§4.2): `buildGraph` — self-references fail with
`SelfReferenceError`, cycles fail with `CyclicDependencyError` naming the
full cycle path, otherwise the adjacency structure and a topological order
are returned. -/
def buildGraph (tree : ConstructTree) : Except SynthError (Graph × List String) :=
  match tree.find? (fun n => selfLoop n) with
  | some n => .error (.selfRef n.id)
  | none =>
    let g := buildGraphRaw tree
    match findCycle g with
    | some c => .error (.cyclic c)
    | none => .ok (g, topoOrder g)

/-- Resolve one node's inputs into a resolved mapping. -/
def resolveNode (n : ResourceNode) : String × RVal :=
  (n.id, .map (resolveKVs n.inputs))

/-- Modelled from the spec (§4.3, §7): `resolve(tree)` — dangling references
are rejected first (structural-definition errors are caught before any graph
or resolution work), then the Reference Graph is built and checked for
self-loops and cycles, and only then is any node's value resolved; on any
error no resolved document is produced. -/
def resolveTree (tree : ConstructTree) :
    Except SynthError (List (String × RVal) × Graph × List String) :=
  match findDangling tree with
  | some p => .error (.dangling p)
  | none =>
    match buildGraph tree with
    | .error e => .error e
    | .ok (g, ord) => .ok (List.map resolveNode tree, g, ord)

/-! ## Document Emitter (spec §4.4) -/

/-- Emitted scalar forms: a quoted string scalar, or raw (unquoted) numeric,
boolean and null scalars. Keeping the form as data states the typing rule
directly: a number or boolean is never emitted as a quoted string. -/
inductive Scalar where
  | qstr (s : String)
  | rnum (n : Int)
  | rbool (b : Bool)
  | rnull
deriving DecidableEq

/-- Render one scalar: strings are quoted (content untouched — format-minimal
escaping only), numbers and booleans render raw and unquoted. -/
def renderScalar : Scalar → String
  | .qstr s => "\"" ++ s ++ "\""
  | .rnum n => toString n
  | .rbool b => if b then "true" else "false"
  | .rnull => "null"

/-- The scalar form a resolved leaf is emitted as (none for collections). -/
def scalarForm : RVal → Option Scalar
  | .str s => some (.qstr s)
  | .num n => some (.rnum n)
  | .bool b => some (.rbool b)
  | .null => some .rnull
  | .seq _ => none
  | .map _ => none

mutual
/-- Modelled from the spec (§4.4): serialize a resolved document, preserving
key insertion order exactly as declared (no re-sorting) and scalar typing. -/
def emitR : RVal → String
  | .str s => renderScalar (.qstr s)
  | .num n => renderScalar (.rnum n)
  | .bool b => renderScalar (.rbool b)
  | .null => renderScalar .rnull
  | .seq xs => "[" ++ emitList xs ++ "]"
  | .map kvs => "(" ++ emitKVs kvs ++ ")"

/-- Emit sequence elements in order, comma-separated. -/
def emitList : RList → String
  | .nil => ""
  | .cons v .nil => emitR v
  | .cons v (.cons w rest) => emitR v ++ ", " ++ emitList (.cons w rest)

/-- Emit mapping entries in declared order, comma-separated. -/
def emitKVs : RKVList → String
  | .nil => ""
  | .cons k v .nil => k ++ ": " ++ emitR v
  | .cons k v (.cons k2 w rest) => k ++ ": " ++ emitR v ++ ", " ++ emitKVs (.cons k2 w rest)
end

/-- The keys of a resolved mapping, in emitted order. -/
def rkeys : RKVList → List String
  | .nil => []
  | .cons k _ rest => k :: rkeys rest

/-- The keys of a Value mapping, in declared order. -/
def vkeys : KVList → List String
  | .nil => []
  | .cons k _ rest => k :: vkeys rest

/-- Look up a key in a resolved mapping. -/
def rlookup (k : String) : RKVList → Option RVal
  | .nil => none
  | .cons k2 v rest => if k2 = k then some v else rlookup k rest

/-- Look up an input field of a node by name. -/
def vlookup (k : String) : KVList → Option Value
  | .nil => none
  | .cons k2 v rest => if k2 = k then some v else vlookup k rest

/-- Find a node by id in a tree. -/
def lookupNode (tree : ConstructTree) (i : String) : Option ResourceNode :=
  tree.find? (fun n => n.id == i)

/-- Look up an input Value of a named node of a tree. -/
def inputOf (tree : ConstructTree) (i fld : String) : Option Value :=
  match lookupNode tree i with
  | some n => vlookup fld n.inputs
  | none => none

/-! ## The MyStack construct tree, embedded from src/stacks/my-stack.ts -/

/-- Shorthand for a string-literal Value. -/
def vstr (s : String) : Value := .lit (.str s)

/-- The Token exposed by the CodeBuild project's `name` attribute
(`sampleProject.name` in src/stacks/my-stack.ts). -/
def sampleProjectNameTok : Token := ⟨"SampleProject", "name"⟩

/-- The raw foreign CI expression passed to `Fn.rawString` on line 140 of
src/stacks/my-stack.ts. -/
def githubRunIdRaw : String :=
  "$\x7b\x7b github.run_id \x7d\x7d-$\x7b\x7b github.run_attempt \x7d\x7d"

/-- The `runs-on` field of the workflow (line 140): literal "codebuild-",
then the project-name Token, then literal "-", then the foreign expression. -/
def runsOnValue : Value :=
  .composed [.lit "codebuild-", .tok sampleProjectNameTok, .lit "-",
             .foreign ⟨githubRunIdRaw⟩]

/-- The GHA workflow object (lines 133–148), keys in declared order. -/
def ghaWorkflowValue : Value :=
  .map (.cons "name" (vstr "Hello World")
    (.cons "on" (.map (.cons "workflow_dispatch" (.map .nil) .nil))
    (.cons "jobs" (.map (.cons "hello_world"
        (.map (.cons "runs-on" runsOnValue
          (.cons "steps" (.seq (.cons
              (.map (.cons "run" (vstr "echo \"Hello World!\"") .nil))
              .nil))
          .nil)))
        .nil))
    .nil)))

/-- AwsProvider (line 27). -/
def awsProviderNode : ResourceNode := ⟨"AwsProvider", "aws", .nil, []⟩

/-- GithubProvider (line 28). -/
def githubProviderNode : ResourceNode := ⟨"GithubProvider", "github", .nil, []⟩

/-- SampleRepo (lines 34–37). -/
def sampleRepoNode : ResourceNode :=
  ⟨"SampleRepo", "github_repository",
    .cons "name" (vstr "sample-repo") (.cons "autoInit" (.lit (.bool true)) .nil),
    ["name", "htmlUrl", "fullName"]⟩

/-- CodebuildAssumeRolePolicy (lines 43–60). -/
def codebuildAssumeRolePolicyNode : ResourceNode :=
  ⟨"CodebuildAssumeRolePolicy", "aws_iam_policy_document",
    .cons "statement" (.seq (.cons (.map
      (.cons "effect" (vstr "Allow")
      (.cons "actions" (.seq (.cons (vstr "sts:AssumeRole") .nil))
      (.cons "principals" (.seq (.cons (.map
        (.cons "type" (vstr "Service")
        (.cons "identifiers" (.seq (.cons (vstr "codebuild.amazonaws.com") .nil))
        .nil))) .nil))
      .nil)))) .nil)) .nil,
    ["json"]⟩

/-- CWLogsPolicy (lines 62–70). -/
def cwLogsPolicyNode : ResourceNode :=
  ⟨"CWLogsPolicy", "aws_iam_policy_document",
    .cons "statement" (.seq (.cons (.map
      (.cons "effect" (vstr "Allow")
      (.cons "actions" (.seq (.cons (vstr "logs:CreateLogGroup")
                             (.cons (vstr "logs:CreateLogStream")
                             (.cons (vstr "logs:PutLogEvents") .nil))))
      (.cons "resources" (.seq (.cons (vstr "*") .nil))
      .nil)))) .nil)) .nil,
    ["json"]⟩

/-- CodebuildProjectRole (lines 76–85): references the two policy documents'
`json` output Tokens. -/
def codebuildProjectRoleNode : ResourceNode :=
  ⟨"CodebuildProjectRole", "aws_iam_role",
    .cons "name" (vstr "codebuild-project-role")
    (.cons "assumeRolePolicy" (.tok ⟨"CodebuildAssumeRolePolicy", "json"⟩)
    (.cons "inlinePolicy" (.seq (.cons (.map
        (.cons "name" (vstr "cw-logs-policy")
        (.cons "policy" (.tok ⟨"CWLogsPolicy", "json"⟩) .nil))) .nil))
    .nil)),
    ["arn"]⟩

/-- GithubSourceCredential (lines 91–95): the validated GITHUB_TOKEN value is
passed unchanged as the `token` field. -/
def githubSourceCredentialNode (ghToken : String) : ResourceNode :=
  ⟨"GithubSourceCredential", "aws_codebuild_source_credential",
    .cons "authType" (vstr "PERSONAL_ACCESS_TOKEN")
    (.cons "serverType" (vstr "GITHUB")
    (.cons "token" (vstr ghToken) .nil)),
    []⟩

/-- SampleProject (lines 97–112): references the role's `arn` Token and the
repository's `htmlUrl` Token; exposes its `name` output Token. -/
def sampleProjectNode : ResourceNode :=
  ⟨"SampleProject", "aws_codebuild_project",
    .cons "name" (vstr "sample-project")
    (.cons "serviceRole" (.tok ⟨"CodebuildProjectRole", "arn"⟩)
    (.cons "source" (.map (.cons "type" (vstr "GITHUB")
                     (.cons "location" (.tok ⟨"SampleRepo", "htmlUrl"⟩) .nil)))
    (.cons "environment" (.map (.cons "type" (vstr "LINUX_CONTAINER")
                          (.cons "computeType" (vstr "BUILD_GENERAL1_SMALL")
                          (.cons "image" (vstr "aws/codebuild/standard:7.0") .nil))))
    (.cons "artifacts" (.map (.cons "type" (vstr "NO_ARTIFACTS") .nil))
    .nil)))),
    ["name"]⟩

/-- CodebuildWebhook (lines 114–126): `projectName` is the project's `name`
Token; the filter fires on WORKFLOW_JOB_QUEUED. -/
def codebuildWebhookNode : ResourceNode :=
  ⟨"CodebuildWebhook", "aws_codebuild_webhook",
    .cons "projectName" (.tok sampleProjectNameTok)
    (.cons "filterGroup" (.seq (.cons (.map
      (.cons "filter" (.seq (.cons (.map
        (.cons "type" (vstr "EVENT")
        (.cons "pattern" (vstr "WORKFLOW_JOB_QUEUED") .nil))) .nil)) .nil)) .nil))
    .nil),
    []⟩

/-- The workflow file path wrapped in `Fn.rawString` on line 153. -/
def workflowFilePath : String := ".github/workflows/hello-world.yml"

/-- GhaWorkflowFile (lines 151–156): the RepositoryFile committing the
workflow document to the repository. -/
def ghaWorkflowFileNode : ResourceNode :=
  ⟨"GhaWorkflowFile", "github_repository_file",
    .cons "repository" (.tok ⟨"SampleRepo", "name"⟩)
    (.cons "file" (.foreign ⟨workflowFilePath⟩)
    (.cons "content" ghaWorkflowValue
    (.cons "commitMessage" (vstr "Add GHA workflow file") .nil))),
    []⟩

/-- The TerraformOutput URL value (line 163): composed of a literal head, the
repository's `fullName` Token, and a literal tail. -/
def ghaWorkflowUrlValue : Value :=
  .composed [.lit "https://github.com/", .tok ⟨"SampleRepo", "fullName"⟩,
             .lit "/actions/workflows/hello-world.yml"]

/-- GhaWorkflowUrl output (lines 162–165). -/
def ghaWorkflowUrlNode : ResourceNode :=
  ⟨"GhaWorkflowUrl", "terraform_output",
    .cons "value" ghaWorkflowUrlValue
    (.cons "description" (vstr "URL to the GitHub Actions workflow") .nil),
    []⟩

/-- The full MyStack construct tree (src/stacks/my-stack.ts), in declaration
order, parameterized by the validated GITHUB_TOKEN value. -/
def myStackTree (ghToken : String) : ConstructTree :=
  [awsProviderNode, githubProviderNode, sampleRepoNode,
   codebuildAssumeRolePolicyNode, cwLogsPolicyNode, codebuildProjectRoleNode,
   githubSourceCredentialNode ghToken, sampleProjectNode, codebuildWebhookNode,
   ghaWorkflowFileNode, ghaWorkflowUrlNode]

/-! ## Environment validation (src/utils/validate-env, modelled) -/

/-- Modelled from the spec (§6): `validateEnv` — the implementation in
src/utils/validate-env.ts is not under src/. Each required name must be
present in the environment; the missing names are reported as a precondition
failure, and on success the validated name/value pairs are returned. -/
def validateEnv (names : List String) (env : List (String × String)) :
    Except (List String) (List (String × String)) :=
  let missing := names.filter (fun n => (env.lookup n).isNone)
  if missing.isEmpty then
    .ok (names.filterMap (fun n => (env.lookup n).map (fun v => (n, v))))
  else .error missing

/-- Embedded from src/stacks/my-stack.ts line 16: the exact argument of the
module-scope `validateEnv` call. -/
def requiredEnvNames : List String := ["GITHUB_TOKEN"]

/-- Module load order (src/stacks/my-stack.ts lines 15–16): `validateEnv`
runs at module scope, before any `MyStack` can be constructed; only when it
succeeds is the stack built, with the validated GITHUB_TOKEN value. -/
def loadModule (env : List (String × String)) :
    Except (List String) ConstructTree :=
  match validateEnv requiredEnvNames env with
  | .error m => .error m
  | .ok vals => .ok (myStackTree ((vals.lookup "GITHUB_TOKEN").getD ""))

/-! ## Demonstration trees from the spec's concrete scenarios -/

/-- Spec §8 scenario: node `Net` with output `id` and no inputs. -/
def netNode : ResourceNode := ⟨"net", "subnet", .nil, ["id"]⟩

/-- Spec §8 scenario: node `Host` with input `subnet = Token(Net, id)`. -/
def hostNode : ResourceNode :=
  ⟨"host", "instance", .cons "subnet" (.tok ⟨"net", "id"⟩) .nil, []⟩

/-- The two-node Net/Host tree of the spec's concrete scenario. -/
def netHostTree : ConstructTree := [netNode, hostNode]

/-- Spec §8 scenario: the `runs-on` field composed of literal "runner-", the
project-name Token, literal "-", and the foreign CI expression. -/
def runsOnScenario : Value :=
  .composed [.lit "runner-", .tok ⟨"project", "name"⟩, .lit "-",
             .foreign ⟨"$\x7b\x7b github.run_id \x7d\x7d"⟩]

/-- A 3-node cycle a→b→c→a: each node's input references the next node's
output Token (spec §8 cycle-detection scenario). -/
def cycNodeA : ResourceNode := ⟨"a", "t", .cons "x" (.tok ⟨"b", "out"⟩) .nil, ["out"]⟩

/-- Second node of the 3-cycle. -/
def cycNodeB : ResourceNode := ⟨"b", "t", .cons "x" (.tok ⟨"c", "out"⟩) .nil, ["out"]⟩

/-- Third node of the 3-cycle. -/
def cycNodeC : ResourceNode := ⟨"c", "t", .cons "x" (.tok ⟨"a", "out"⟩) .nil, ["out"]⟩

/-- The cyclic tree a→b→c→a. -/
def cycTree : ConstructTree := [cycNodeA, cycNodeB, cycNodeC]

/-- A tree with a dangling reference: one node whose input embeds a Token
owned by a node id that does not exist in the tree. -/
def danglingTree : ConstructTree :=
  [⟨"lonely", "t", .cons "ref" (.tok ⟨"ghost", "attr"⟩) .nil, []⟩]

/-! ## Occurrence-in-output predicate and document accessors -/

/-- `SegIn needle hay`: the character list `needle` occurs contiguously and
verbatim inside `hay`. -/
def SegIn (needle hay : List Char) : Prop :=
  ∃ p q, hay = p ++ needle ++ q

/-- Top-level keys of a resolved mapping document, in emitted order. -/
def topKeys : RVal → List String
  | .map kvs => rkeys kvs
  | _ => []

/-- Enter a key of a resolved mapping document. -/
def atKey (r : RVal) (k : String) : Option RVal :=
  match r with
  | .map kvs => rlookup k kvs
  | _ => none

/-- Positional access into a resolved sequence. -/
def rlistGet : RList → Nat → Option RVal
  | .nil, _ => none
  | .cons v _, 0 => some v
  | .cons _ rest, i + 1 => rlistGet rest i

/-- Index into a resolved sequence document. -/
def atIdx (r : RVal) (i : Nat) : Option RVal :=
  match r with
  | .seq xs => rlistGet xs i
  | _ => none

/-- Enter a key of a source mapping Value. -/
def vAtKey (v : Value) (k : String) : Option Value :=
  match v with
  | .map kvs => vlookup k kvs
  | _ => none

/-- Positional access into a source sequence Value. -/
def vlistGet : ValueList → Nat → Option Value
  | .nil, _ => none
  | .cons v _, 0 => some v
  | .cons _ rest, i + 1 => vlistGet rest i

/-- Index into a source sequence Value. -/
def vAtIdx (v : Value) (i : Nat) : Option Value :=
  match v with
  | .seq xs => vlistGet xs i
  | _ => none

/-- The emitted form of the resolved MyStack workflow document: keys in
declared order (name, on, jobs; then runs-on, steps), the Token in its
interpolation form and the foreign expression verbatim. -/
def ghaWorkflowEmitted : String :=
  "(name: \"Hello World\", on: (workflow_dispatch: ()), jobs: " ++
  "(hello_world: (runs-on: \"codebuild-$\x7bSampleProject.name\x7d-" ++
  "$\x7b\x7b github.run_id \x7d\x7d-$\x7b\x7b github.run_attempt \x7d\x7d\", " ++
  "steps: [(run: \"echo \"Hello World!\"\")])))"

/-! ## Helper lemmas -/

/-- Looking up a node's id in the raw Reference Graph of a tree with nodup
ids yields exactly that node's edge targets. -/
theorem lookup_buildGraphRaw (tree : ConstructTree) (A : ResourceNode)
    (hnd : (nodeIds tree).Nodup) (hA : A ∈ tree) :
    List.lookup A.id (buildGraphRaw tree) = some (edgeTargets A) := by
  induction tree with
  | nil => cases hA
  | cons n rest ih =>
    have hnd' : (nodeIds rest).Nodup ∧ n.id ∉ nodeIds rest := by
      simpa [nodeIds, List.nodup_cons, and_comm] using hnd
    rcases List.mem_cons.mp hA with rfl | hA
    · simp [buildGraphRaw, List.lookup_cons]
    · have hne : A.id ≠ n.id := by
        intro h
        exact hnd'.2 (h ▸ List.mem_map_of_mem (fun m => m.id) hA)
      have : (A.id == n.id) = false := beq_eq_false_iff_ne.mpr hne
      simpa [buildGraphRaw, List.lookup_cons, this] using ih hnd'.1 hA

/-- `hasEdge` on the raw graph of a nodup tree characterizes Token ownership:
node `A` has an edge to `B` iff some Token in `A`'s inputs is owned by `B`. -/
theorem hasEdge_iff (tree : ConstructTree) (A : ResourceNode) (B : String)
    (hnd : (nodeIds tree).Nodup) (hA : A ∈ tree) :
    hasEdge (buildGraphRaw tree) A.id B = true ↔
      ∃ t ∈ nodeTokens A, t.ownerResourceId = B := by
  unfold hasEdge adjOf
  rw [lookup_buildGraphRaw tree A hnd hA]
  simp only [Option.getD_some]
  rw [show ((edgeTargets A).contains B = true) ↔ B ∈ edgeTargets A from List.elem_iff]
  unfold edgeTargets
  rw [List.mem_dedup, List.mem_map]

/-- Every sublist of `l` appears in `subseqs l`. -/
theorem mem_subseqs_of_sublist {α : Type} {s l : List α} (h : s.Sublist l) :
    s ∈ subseqs l := by
  induction h with
  | slnil => simp [subseqs]
  | cons a h ih => exact List.mem_append.mpr (Or.inr ih)
  | cons₂ a h ih =>
    exact List.mem_append.mpr (Or.inl (List.mem_map.mpr ⟨_, ih, rfl⟩))

/-- A list containing `a` appears among the insertions of `a` into the list
with `a` erased. -/
theorem mem_insertsOf {α : Type} [DecidableEq α] (a : α) :
    ∀ (c : List α), a ∈ c → c ∈ insertsOf a (c.erase a)
  | [], h => absurd h (List.not_mem_nil a)
  | b :: tail, h => by
    by_cases hba : b = a
    · subst hba
      rw [List.erase_cons_head]
      cases tail with
      | nil => simp [insertsOf]
      | cons x xs => simp only [insertsOf]; exact List.mem_cons_self _ _
    · have ha : a ∈ tail := by
        rcases List.mem_cons.mp h with h' | h'
        · exact absurd h'.symm hba
        · exact h'
      rw [List.erase_cons_tail (by simpa using hba)]
      simp only [insertsOf]
      refine List.mem_cons.mpr (Or.inr ?_)
      exact List.mem_map.mpr ⟨tail, mem_insertsOf a tail ha, rfl⟩

/-- Every permutation of `s` appears in `permsOf s`. -/
theorem mem_permsOf_of_perm {α : Type} [DecidableEq α] :
    ∀ (s c : List α), c.Perm s → c ∈ permsOf s
  | [], c, h => by simp [permsOf, List.perm_nil.mp h]
  | a :: s', c, h => by
    have h' : a ∈ c ∧ s'.Perm (c.erase a) := List.cons_perm_iff_perm_erase.mp h.symm
    have hrec : c.erase a ∈ permsOf s' := mem_permsOf_of_perm s' (c.erase a) h'.2.symm
    simp only [permsOf]
    exact List.mem_flatMap.mpr ⟨c.erase a, hrec, mem_insertsOf a c h'.1⟩

/-- Completeness of the candidate enumeration: every nodup list of graph
node ids is a candidate. -/
theorem mem_cycleCandidates (g : Graph) (c : List String)
    (hnd : c.Nodup) (hsub : ∀ x ∈ c, x ∈ List.map Prod.fst g) :
    c ∈ cycleCandidates g := by
  have hfil : ((List.map Prod.fst g).dedup.filter (fun x => decide (x ∈ c))).Sublist
      (List.map Prod.fst g).dedup := List.filter_sublist _
  have hperm : c.Perm ((List.map Prod.fst g).dedup.filter (fun x => decide (x ∈ c))) := by
    apply (List.perm_ext_iff_of_nodup hnd (hfil.nodup (List.nodup_dedup _))).mpr
    intro x
    constructor
    · intro hx
      exact List.mem_filter.mpr ⟨List.mem_dedup.mpr (hsub x hx), by simpa using hx⟩
    · intro hx
      simpa using (List.mem_filter.mp hx).2
  exact List.mem_flatMap.mpr
    ⟨_, mem_subseqs_of_sublist hfil, mem_permsOf_of_perm _ _ hperm⟩

/-- All Tokens of all nodes of a tree. -/
def treeTokens (tree : ConstructTree) : List Token :=
  tree.flatMap nodeTokens

mutual
/-- Completeness of the dangling scan on Values: a Token with an absent
owner is always found. -/
theorem danglingC_value (ids path : List String) :
    ∀ (v : Value), (∃ t ∈ valueTokens v, t.ownerResourceId ∉ ids) →
      (danglingInValue ids path v).isSome = true
  | .lit l, h => by cases l <;> simp [valueTokens] at h
  | .tok t, h => by
    obtain ⟨t', ht', ho⟩ := h
    simp only [valueTokens, List.mem_singleton] at ht'
    subst ht'
    simpa [danglingInValue] using ho
  | .foreign f, h => by simp [valueTokens] at h
  | .composed ps, h => by
    obtain ⟨t, ht, ho⟩ := h
    simp only [valueTokens] at ht
    obtain ⟨p, hp, htp⟩ := List.mem_flatMap.mp ht
    have hpd : partDangles ids p = true := by
      cases p with
      | lit s => simp [partTokens] at htp
      | tok t' =>
        simp only [partTokens, List.mem_singleton] at htp
        subst htp
        simpa [partDangles] using ho
      | foreign f => simp [partTokens] at htp
    have hany : ps.any (fun p => partDangles ids p) = true :=
      List.any_eq_true.mpr ⟨p, hp, hpd⟩
    simp [danglingInValue, hany]
  | .seq xs, h => by
    simp only [valueTokens] at h
    simpa [danglingInValue] using danglingC_list ids path 0 xs h
  | .map kvs, h => by
    simp only [valueTokens] at h
    simpa [danglingInValue] using danglingC_kvs ids path kvs h

/-- Completeness of the dangling scan on sequences. -/
theorem danglingC_list (ids path : List String) :
    ∀ (i : Nat) (xs : ValueList), (∃ t ∈ listTokens xs, t.ownerResourceId ∉ ids) →
      (danglingInList ids path i xs).isSome = true
  | _, .nil, h => by simp [listTokens] at h
  | i, .cons v rest, h => by
    obtain ⟨t, ht, ho⟩ := h
    simp only [listTokens] at ht
    rcases List.mem_append.mp ht with hv | hr
    · have hsome := danglingC_value ids (path ++ [toString i]) v ⟨t, hv, ho⟩
      cases hd : danglingInValue ids (path ++ [toString i]) v with
      | none => rw [hd] at hsome; simp at hsome
      | some p => simp [danglingInList, hd]
    · have hsome := danglingC_list ids path (i + 1) rest ⟨t, hr, ho⟩
      cases hd : danglingInValue ids (path ++ [toString i]) v with
      | none => simpa [danglingInList, hd] using hsome
      | some p => simp [danglingInList, hd]

/-- Completeness of the dangling scan on mappings. -/
theorem danglingC_kvs (ids path : List String) :
    ∀ (kvs : KVList), (∃ t ∈ kvsTokens kvs, t.ownerResourceId ∉ ids) →
      (danglingInKVs ids path kvs).isSome = true
  | .nil, h => by simp [kvsTokens] at h
  | .cons k v rest, h => by
    obtain ⟨t, ht, ho⟩ := h
    simp only [kvsTokens] at ht
    rcases List.mem_append.mp ht with hv | hr
    · have hsome := danglingC_value ids (path ++ [k]) v ⟨t, hv, ho⟩
      cases hd : danglingInValue ids (path ++ [k]) v with
      | none => rw [hd] at hsome; simp at hsome
      | some p => simp [danglingInKVs, hd]
    · have hsome := danglingC_kvs ids path rest ⟨t, hr, ho⟩
      cases hd : danglingInValue ids (path ++ [k]) v with
      | none => simpa [danglingInKVs, hd] using hsome
      | some p => simp [danglingInKVs, hd]
end

mutual
/-- Soundness of the dangling scan on Values: a hit means some Token's owner
is absent. -/
theorem danglingS_value (ids path : List String) :
    ∀ (v : Value), (danglingInValue ids path v).isSome = true →
      ∃ t ∈ valueTokens v, t.ownerResourceId ∉ ids
  | .lit l, h => by cases l <;> simp [danglingInValue] at h
  | .tok t, h => by
    simp [danglingInValue] at h
    exact ⟨t, by simp [valueTokens], h⟩
  | .foreign f, h => by simp [danglingInValue] at h
  | .composed ps, h => by
    cases hany : ps.any (fun p => partDangles ids p) with
    | false => simp [danglingInValue, hany] at h
    | true =>
      obtain ⟨p, hp, hpd⟩ := List.any_eq_true.mp hany
      cases p with
      | lit s => simp [partDangles] at hpd
      | tok t' =>
        refine ⟨t', ?_, by simpa [partDangles] using hpd⟩
        simp only [valueTokens]
        exact List.mem_flatMap.mpr ⟨.tok t', hp, by simp [partTokens]⟩
      | foreign f => simp [partDangles] at hpd
  | .seq xs, h => by
    simp only [valueTokens]
    exact danglingS_list ids path 0 xs (by simpa [danglingInValue] using h)
  | .map kvs, h => by
    simp only [valueTokens]
    exact danglingS_kvs ids path kvs (by simpa [danglingInValue] using h)

/-- Soundness of the dangling scan on sequences. -/
theorem danglingS_list (ids path : List String) :
    ∀ (i : Nat) (xs : ValueList), (danglingInList ids path i xs).isSome = true →
      ∃ t ∈ listTokens xs, t.ownerResourceId ∉ ids
  | _, .nil, h => by simp [danglingInList] at h
  | i, .cons v rest, h => by
    simp only [listTokens]
    cases hd : danglingInValue ids (path ++ [toString i]) v with
    | some p =>
      obtain ⟨t, ht, ho⟩ := danglingS_value ids (path ++ [toString i]) v (by simp [hd])
      exact ⟨t, List.mem_append.mpr (Or.inl ht), ho⟩
    | none =>
      obtain ⟨t, ht, ho⟩ := danglingS_list ids path (i + 1) rest
        (by simpa [danglingInList, hd] using h)
      exact ⟨t, List.mem_append.mpr (Or.inr ht), ho⟩

/-- Soundness of the dangling scan on mappings. -/
theorem danglingS_kvs (ids path : List String) :
    ∀ (kvs : KVList), (danglingInKVs ids path kvs).isSome = true →
      ∃ t ∈ kvsTokens kvs, t.ownerResourceId ∉ ids
  | .nil, h => by simp [danglingInKVs] at h
  | .cons k v rest, h => by
    simp only [kvsTokens]
    cases hd : danglingInValue ids (path ++ [k]) v with
    | some p =>
      obtain ⟨t, ht, ho⟩ := danglingS_value ids (path ++ [k]) v (by simp [hd])
      exact ⟨t, List.mem_append.mpr (Or.inl ht), ho⟩
    | none =>
      obtain ⟨t, ht, ho⟩ := danglingS_kvs ids path rest
        (by simpa [danglingInKVs, hd] using h)
      exact ⟨t, List.mem_append.mpr (Or.inr ht), ho⟩
end

mutual
/-- The path a dangling hit reports always extends the walk's path. -/
theorem danglingP_value (ids path : List String) :
    ∀ (v : Value) (p : List String), danglingInValue ids path v = some p →
      ∃ s, p = path ++ s
  | .lit l, p, h => by cases l <;> simp [danglingInValue] at h
  | .tok t, p, h => by
    simp [danglingInValue] at h
    exact ⟨[], by simp [h.2]⟩
  | .foreign f, p, h => by simp [danglingInValue] at h
  | .composed ps, p, h => by
    cases hany : ps.any (fun q => partDangles ids q) with
    | false => simp [danglingInValue, hany] at h
    | true =>
      have : path = p := by simpa [danglingInValue, hany] using h
      exact ⟨[], by simp [this]⟩
  | .seq xs, p, h =>
    danglingP_list ids path 0 xs p (by simpa [danglingInValue] using h)
  | .map kvs, p, h =>
    danglingP_kvs ids path kvs p (by simpa [danglingInValue] using h)

/-- Path extension for sequence scans. -/
theorem danglingP_list (ids path : List String) :
    ∀ (i : Nat) (xs : ValueList) (p : List String),
      danglingInList ids path i xs = some p → ∃ s, p = path ++ s
  | _, .nil, p, h => by simp [danglingInList] at h
  | i, .cons v rest, p, h => by
    cases hd : danglingInValue ids (path ++ [toString i]) v with
    | some p' =>
      have hp : p' = p := by simpa [danglingInList, hd] using h
      obtain ⟨s, hs⟩ := danglingP_value ids (path ++ [toString i]) v p' hd
      refine ⟨toString i :: s, ?_⟩
      rw [← hp, hs]
      simp
    | none =>
      exact danglingP_list ids path (i + 1) rest p
        (by simpa [danglingInList, hd] using h)

/-- Path extension for mapping scans. -/
theorem danglingP_kvs (ids path : List String) :
    ∀ (kvs : KVList) (p : List String),
      danglingInKVs ids path kvs = some p → ∃ s, p = path ++ s
  | .nil, p, h => by simp [danglingInKVs] at h
  | .cons k v rest, p, h => by
    cases hd : danglingInValue ids (path ++ [k]) v with
    | some p' =>
      have hp : p' = p := by simpa [danglingInKVs, hd] using h
      obtain ⟨s, hs⟩ := danglingP_value ids (path ++ [k]) v p' hd
      refine ⟨k :: s, ?_⟩
      rw [← hp, hs]
      simp
    | none =>
      exact danglingP_kvs ids path rest p (by simpa [danglingInKVs, hd] using h)
end

/-- Completeness of the tree-level dangling scan. -/
theorem findDanglingGo_complete (ids : List String) :
    ∀ (nodes : List ResourceNode),
      (∃ n ∈ nodes, ∃ t ∈ nodeTokens n, t.ownerResourceId ∉ ids) →
      (findDanglingGo ids nodes).isSome = true
  | [], h => by simp at h
  | n :: rest, h => by
    rcases h with ⟨m, hm, ht⟩
    rcases List.mem_cons.mp hm with rfl | hmr
    · have hsome := danglingC_kvs ids [m.id] m.inputs ht
      cases hd : danglingInNode ids m with
      | none =>
        rw [show danglingInNode ids m = danglingInKVs ids [m.id] m.inputs from rfl] at hd
        rw [hd] at hsome
        simp at hsome
      | some p => simp [findDanglingGo, hd]
    · cases hd : danglingInNode ids n with
      | none =>
        simpa [findDanglingGo, hd] using
          findDanglingGo_complete ids rest ⟨m, hmr, ht⟩
      | some p => simp [findDanglingGo, hd]

/-- Soundness of the tree-level dangling scan: the reported path starts with
the id of a node whose inputs hold the dangling Token. -/
theorem findDanglingGo_sound (ids : List String) :
    ∀ (nodes : List ResourceNode) (p : List String),
      findDanglingGo ids nodes = some p →
      ∃ n ∈ nodes, (∃ s, p = n.id :: s) ∧
        ∃ t ∈ nodeTokens n, t.ownerResourceId ∉ ids
  | [], p, h => by simp [findDanglingGo] at h
  | n :: rest, p, h => by
    cases hd : danglingInNode ids n with
    | some p' =>
      have hp : p' = p := by simpa [findDanglingGo, hd] using h
      subst hp
      have hd' : danglingInKVs ids [n.id] n.inputs = some p' := hd
      obtain ⟨s, hs⟩ := danglingP_kvs ids [n.id] n.inputs p' hd'
      have htok := danglingS_kvs ids [n.id] n.inputs (by rw [hd']; rfl)
      exact ⟨n, List.mem_cons_self _ _, ⟨s, by simpa using hs⟩, htok⟩
    | none =>
      obtain ⟨m, hm, hph, ht⟩ := findDanglingGo_sound ids rest p
        (by simpa [findDanglingGo, hd] using h)
      exact ⟨m, List.mem_cons_of_mem _ hm, hph, ht⟩

/-- `buildGraph` never reports a dangling reference (only self-loops and
cycles). -/
theorem buildGraph_no_dangling (tree : ConstructTree) (p : List String) :
    buildGraph tree ≠ .error (.dangling p) := by
  cases hs : tree.find? (fun n => selfLoop n) with
  | some n => simp [buildGraph, hs]
  | none =>
    cases hc : findCycle (buildGraphRaw tree) with
    | some c => simp [buildGraph, hs, hc]
    | none => simp [buildGraph, hs, hc]

/-- A dangling error from `resolve` always comes from the dangling scan. -/
theorem resolveTree_dangling_inv (tree : ConstructTree) (p : List String)
    (h : resolveTree tree = .error (.dangling p)) :
    findDangling tree = some p := by
  cases hd : findDangling tree with
  | some p' =>
    have : p' = p := by simpa [resolveTree, hd] using h
    rw [this]
  | none =>
    exfalso
    rcases hbg : buildGraph tree with e | pair
    · have he : e = .dangling p := by simpa [resolveTree, hd, hbg] using h
      exact absurd (he ▸ hbg) (buildGraph_no_dangling tree p)
    · simp [resolveTree, hd, hbg] at h

mutual
/-- Resolving the re-embedded resolved document gives it back unchanged. -/
theorem resolveValue_toValue (v : RVal) : resolveValue (toValue v) = v :=
  match v with
  | .str _ => rfl
  | .num _ => rfl
  | .bool _ => rfl
  | .null => rfl
  | .seq xs => by simp [toValue, resolveValue, resolveList_toValueList xs]
  | .map kvs => by simp [toValue, resolveValue, resolveKVs_toValueKVs kvs]

/-- Sequence version of the re-resolution round trip. -/
theorem resolveList_toValueList (xs : RList) : resolveList (toValueList xs) = xs :=
  match xs with
  | .nil => rfl
  | .cons v rest => by
    simp [toValueList, resolveList, resolveValue_toValue v, resolveList_toValueList rest]

/-- Mapping version of the re-resolution round trip. -/
theorem resolveKVs_toValueKVs (kvs : RKVList) : resolveKVs (toValueKVs kvs) = kvs :=
  match kvs with
  | .nil => rfl
  | .cons k v rest => by
    simp [toValueKVs, resolveKVs, resolveValue_toValue v, resolveKVs_toValueKVs rest]
end

/-- A list occurs in itself. -/
theorem segIn_self (n : List Char) : SegIn n n := ⟨[], [], by simp⟩

/-- Occurrence is preserved by appending on the left. -/
theorem SegIn.extendLeft {n h : List Char} (a : List Char) (hs : SegIn n h) :
    SegIn n (a ++ h) := by
  obtain ⟨p, q, rfl⟩ := hs
  exact ⟨a ++ p, q, by simp⟩

/-- Occurrence is preserved by appending on the right. -/
theorem SegIn.extendRight {n h : List Char} (hs : SegIn n h) (b : List Char) :
    SegIn n (h ++ b) := by
  obtain ⟨p, q, rfl⟩ := hs
  exact ⟨p, q ++ b, by simp⟩

/-- A ForeignExpression of a composed string occurs raw in the concatenated
resolution. -/
theorem segIn_resolveParts (f : ForeignExpression) :
    ∀ (ps : List StrPart), f ∈ ps.flatMap partForeigns →
      SegIn f.raw.data (resolveParts ps).data
  | [], h => by simp at h
  | p :: ps, h => by
    rw [List.flatMap_cons] at h
    rcases List.mem_append.mp h with hp | hps
    · cases p with
      | lit s => simp [partForeigns] at hp
      | tok t => simp [partForeigns] at hp
      | foreign f' =>
        simp only [partForeigns, List.mem_singleton] at hp
        subst hp
        show SegIn f.raw.data (f.raw ++ resolveParts ps).data
        rw [String.data_append]
        exact (segIn_self f.raw.data).extendRight _
    · show SegIn f.raw.data (resolvePart p ++ resolveParts ps).data
      rw [String.data_append]
      exact (segIn_resolveParts f ps hps).extendLeft _

mutual
/-- Every ForeignExpression of a Value occurs raw in the emitted artifact of
its resolution. -/
theorem segIn_emit_value (f : ForeignExpression) :
    ∀ (v : Value), f ∈ valueForeigns v →
      SegIn f.raw.data (emitR (resolveValue v)).data
  | .lit l, h => by cases l <;> simp [valueForeigns] at h
  | .tok t, h => by simp [valueForeigns] at h
  | .foreign f', h => by
    simp only [valueForeigns, List.mem_singleton] at h
    subst h
    show SegIn f.raw.data (("\"" ++ f.raw) ++ "\"").data
    simp only [String.data_append]
    exact ((segIn_self f.raw.data).extendLeft _).extendRight _
  | .composed ps, h => by
    simp only [valueForeigns] at h
    show SegIn f.raw.data (("\"" ++ resolveParts ps) ++ "\"").data
    simp only [String.data_append]
    exact (((segIn_resolveParts f ps h).extendLeft _)).extendRight _
  | .seq xs, h => by
    simp only [valueForeigns] at h
    show SegIn f.raw.data (("[" ++ emitList (resolveList xs)) ++ "]").data
    simp only [String.data_append]
    exact ((segIn_emit_list f xs h).extendLeft _).extendRight _
  | .map kvs, h => by
    simp only [valueForeigns] at h
    show SegIn f.raw.data (("(" ++ emitKVs (resolveKVs kvs)) ++ ")").data
    simp only [String.data_append]
    exact ((segIn_emit_kvs f kvs h).extendLeft _).extendRight _

/-- Sequence version of the raw-occurrence lemma. -/
theorem segIn_emit_list (f : ForeignExpression) :
    ∀ (xs : ValueList), f ∈ listForeigns xs →
      SegIn f.raw.data (emitList (resolveList xs)).data
  | .nil, h => by simp [listForeigns] at h
  | .cons v rest, h => by
    rcases List.mem_append.mp (by simpa [listForeigns] using h) with hv | hr
    · cases rest with
      | nil => exact segIn_emit_value f v hv
      | cons w rr =>
        show SegIn f.raw.data
          (((emitR (resolveValue v) ++ ", ") ++
            emitList (resolveList (.cons w rr)))).data
        simp only [String.data_append]
        exact ((segIn_emit_value f v hv).extendRight _).extendRight _
    · cases rest with
      | nil => simp [listForeigns] at hr
      | cons w rr =>
        show SegIn f.raw.data
          (((emitR (resolveValue v) ++ ", ") ++
            emitList (resolveList (.cons w rr)))).data
        simp only [String.data_append]
        exact (segIn_emit_list f (.cons w rr) hr).extendLeft _

/-- Mapping version of the raw-occurrence lemma. -/
theorem segIn_emit_kvs (f : ForeignExpression) :
    ∀ (kvs : KVList), f ∈ kvsForeigns kvs →
      SegIn f.raw.data (emitKVs (resolveKVs kvs)).data
  | .nil, h => by simp [kvsForeigns] at h
  | .cons k v rest, h => by
    rcases List.mem_append.mp (by simpa [kvsForeigns] using h) with hv | hr
    · cases rest with
      | nil =>
        show SegIn f.raw.data ((k ++ ": ") ++ emitR (resolveValue v)).data
        simp only [String.data_append]
        exact (segIn_emit_value f v hv).extendLeft _
      | cons k2 w rr =>
        show SegIn f.raw.data
          ((((k ++ ": ") ++ emitR (resolveValue v)) ++ ", ") ++
            emitKVs (resolveKVs (.cons k2 w rr))).data
        simp only [String.data_append]
        exact (((segIn_emit_value f v hv).extendLeft _).extendRight _).extendRight _
    · cases rest with
      | nil => simp [kvsForeigns] at hr
      | cons k2 w rr =>
        show SegIn f.raw.data
          ((((k ++ ": ") ++ emitR (resolveValue v)) ++ ", ") ++
            emitKVs (resolveKVs (.cons k2 w rr))).data
        simp only [String.data_append]
        exact (segIn_emit_kvs f (.cons k2 w rr) hr).extendLeft _
end

/-- Resolution preserves the declared key order of every mapping. -/
theorem rkeys_resolveKVs : ∀ (kvs : KVList), rkeys (resolveKVs kvs) = vkeys kvs
  | .nil => rfl
  | .cons k v rest => by simp [resolveKVs, rkeys, vkeys, rkeys_resolveKVs rest]

/-! ## Claims -/

/-- C1: a workflow `runs-on` field composed of literal "runner-", a Token
for the project's name attribute, literal "-", and the ForeignExpression
"${{ github.run_id }}" resolves by concatenating the parts in declared
order — the Token in its interpolation form, the ForeignExpression raw text
untouched — yielding exactly "runner-${project.name}-${{ github.run_id }}". -/
theorem c1_runs_on_scenario_resolution :
    resolveValue runsOnScenario =
      .str ("runner-" ++ interp ⟨"project", "name"⟩ ++ "-" ++
            "$\x7b\x7b github.run_id \x7d\x7d") ∧
    resolveValue runsOnScenario =
      .str "runner-$\x7bproject.name\x7d-$\x7b\x7b github.run_id \x7d\x7d" :=
  ⟨rfl, rfl⟩

/-- C3: the Reference Graph has edge `A → B` iff some input of `A` contains
a Token owned by `B`; concretely, for the Net/Host tree the graph has edge
Host → Net and no edge Net → Host, Host's `subnet` input resolves to the
native interpolation string for Net's `id` attribute, and the topological
order places Net before Host. -/
theorem c3_reference_graph_edges :
    (∀ (tree : ConstructTree) (A : ResourceNode) (B : String),
        (nodeIds tree).Nodup → A ∈ tree →
        (hasEdge (buildGraphRaw tree) A.id B = true ↔
          ∃ t ∈ nodeTokens A, t.ownerResourceId = B)) ∧
    hasEdge (buildGraphRaw netHostTree) "host" "net" = true ∧
    hasEdge (buildGraphRaw netHostTree) "net" "host" = false ∧
    (inputOf netHostTree "host" "subnet").map resolveValue =
      some (.str (interp ⟨"net", "id"⟩)) ∧
    (inputOf netHostTree "host" "subnet").map resolveValue =
      some (.str "$\x7bnet.id\x7d") ∧
    buildGraph netHostTree = .ok (buildGraphRaw netHostTree, ["net", "host"]) :=
  ⟨hasEdge_iff, rfl, rfl, rfl, rfl, rfl⟩

/-- Witness for C3: the edge characterization instantiated at the concrete
Net/Host tree and its Host node. -/
theorem c3_reference_graph_edges_witness :
    hasEdge (buildGraphRaw netHostTree) "host" "net" = true :=
  (c3_reference_graph_edges.1 netHostTree hostNode "net" (by decide)
      (List.Mem.tail _ (List.Mem.head _))).mpr
    ⟨⟨"net", "id"⟩, by decide, rfl⟩

/-- C4: for every tree whose reference relation contains a (simple) cycle —
and which passes the structural checks the spec runs first: no dangling
reference, no self-loop — graph construction fails with a
CyclicDependencyError naming a full cycle path (an ordered list of node ids
that follows edges and closes), and `resolve` fails the same way before any
node's value is resolved, producing no resolved document. -/
theorem c4_cycle_detection (tree : ConstructTree) (c : List String)
    (hnd : c.Nodup)
    (hsub : ∀ x ∈ c, x ∈ nodeIds tree)
    (hcyc : isCyclePath (buildGraphRaw tree) c = true)
    (hself : ∀ n ∈ tree, selfLoop n = false)
    (hdangle : findDangling tree = none) :
    ∃ c', isCyclePath (buildGraphRaw tree) c' = true ∧
      buildGraph tree = .error (.cyclic c') ∧
      resolveTree tree = .error (.cyclic c') := by
  have hfst : List.map Prod.fst (buildGraphRaw tree) = nodeIds tree := by
    simp [buildGraphRaw, nodeIds]
  have hc : c ∈ cycleCandidates (buildGraphRaw tree) :=
    mem_cycleCandidates _ c hnd (by rw [hfst]; exact hsub)
  obtain ⟨c', hfc⟩ : ∃ c', findCycle (buildGraphRaw tree) = some c' := by
    cases hfc : findCycle (buildGraphRaw tree) with
    | some c' => exact ⟨c', rfl⟩
    | none =>
      exact absurd hcyc (by simpa using (List.find?_eq_none.mp hfc) c hc)
  have hc' : isCyclePath (buildGraphRaw tree) c' = true := List.find?_some hfc
  have hselfnone : tree.find? (fun n => selfLoop n) = none :=
    List.find?_eq_none.mpr (by intro n hn; simp [hself n hn])
  have hbg : buildGraph tree = .error (.cyclic c') := by
    simp [buildGraph, hselfnone, hfc]
  exact ⟨c', hc', hbg, by simp [resolveTree, hdangle, hbg]⟩

/-- Witness for C4: cycle detection applied to the concrete 3-node cycle
a→b→c→a, each node's input referencing the next node's output Token. -/
theorem c4_cycle_detection_witness :
    ∃ c', isCyclePath (buildGraphRaw cycTree) c' = true ∧
      buildGraph cycTree = .error (.cyclic c') ∧
      resolveTree cycTree = .error (.cyclic c') :=
  c4_cycle_detection cycTree ["a", "b", "c"] (by decide) (by decide) (by decide)
    (by decide) (by decide)

/-- C5: a tree holds a Token whose owning resource id is absent iff `resolve`
fails with a DanglingReferenceError (so no resolved document is produced),
and the error's attribute path identifies an offending node: it starts with
the id of a node whose inputs contain a Token with an absent owner. -/
theorem c5_dangling_reference (tree : ConstructTree) :
    ((∃ t ∈ treeTokens tree, t.ownerResourceId ∉ nodeIds tree) ↔
      (∃ p, resolveTree tree = .error (.dangling p))) ∧
    (∀ p, resolveTree tree = .error (.dangling p) →
      ∃ n ∈ tree, (∃ s, p = n.id :: s) ∧
        ∃ t ∈ nodeTokens n, t.ownerResourceId ∉ nodeIds tree) := by
  have sound : ∀ p, resolveTree tree = .error (.dangling p) →
      ∃ n ∈ tree, (∃ s, p = n.id :: s) ∧
        ∃ t ∈ nodeTokens n, t.ownerResourceId ∉ nodeIds tree := by
    intro p hp
    exact findDanglingGo_sound (nodeIds tree) tree p
      (resolveTree_dangling_inv tree p hp)
  refine ⟨⟨?_, ?_⟩, sound⟩
  · intro h
    have hex : ∃ n ∈ tree, ∃ t ∈ nodeTokens n, t.ownerResourceId ∉ nodeIds tree := by
      obtain ⟨t, ht, ho⟩ := h
      obtain ⟨n, hn, htn⟩ := List.mem_flatMap.mp ht
      exact ⟨n, hn, t, htn, ho⟩
    have hsome := findDanglingGo_complete (nodeIds tree) tree hex
    cases hd : findDangling tree with
    | none =>
      rw [show findDangling tree = findDanglingGo (nodeIds tree) tree from rfl] at hd
      rw [hd] at hsome
      simp at hsome
    | some p => exact ⟨p, by simp [resolveTree, hd]⟩
  · rintro ⟨p, hp⟩
    obtain ⟨n, hn, _, t, htn, ho⟩ := sound p hp
    exact ⟨t, List.mem_flatMap.mpr ⟨n, hn, htn⟩, ho⟩

/-- Witness for C5: the dangling characterization applied to the concrete
one-node tree referencing the absent node id "ghost". -/
theorem c5_dangling_reference_witness :
    ∃ p, resolveTree danglingTree = .error (.dangling p) :=
  (c5_dangling_reference danglingTree).1.mp
    ⟨⟨"ghost", "attr"⟩, by decide, by decide⟩

/-- C6: `resolve` is idempotent and deterministic — it is a pure function of
the tree (no shared mutable state in the model), and re-resolving an already
resolved document reproduces it byte-identically: the round trip through
`toValue` is the identity on every resolver output, both for a single Value
and for every resolved document a successful `resolve` returns. -/
theorem c6_resolve_idempotent :
    (∀ (v : Value), resolveValue (toValue (resolveValue v)) = resolveValue v) ∧
    (∀ (tree : ConstructTree) (docs : List (String × RVal)) (g : Graph)
        (ord : List String),
      resolveTree tree = .ok (docs, g, ord) →
      List.map (fun pr => (pr.1, resolveValue (toValue pr.2))) docs = docs) := by
  constructor
  · intro v
    exact resolveValue_toValue (resolveValue v)
  · intro tree docs g ord _
    have hfun : (fun pr : String × RVal => (pr.1, resolveValue (toValue pr.2))) = id := by
      funext pr
      rw [resolveValue_toValue]
      rfl
    rw [hfun, List.map_id]

/-- Witness for C6: re-resolving the resolved Net/Host document is the
identity. -/
theorem c6_resolve_idempotent_witness :
    List.map (fun pr => (pr.1, resolveValue (toValue pr.2)))
        (List.map resolveNode netHostTree) = List.map resolveNode netHostTree :=
  c6_resolve_idempotent.2 netHostTree (List.map resolveNode netHostTree)
    (buildGraphRaw netHostTree) ["net", "host"] rfl

/-- C2: the resolver emits every ForeignExpression's raw string verbatim —
it recognizes the wrapper and performs no substitution or escaping — and for
every ForeignExpression occurring anywhere in a Value, the emitted artifact
of the resolved Value contains the raw text unchanged (the model's only
format-level escaping is the quoting of whole string scalars, which leaves
their content untouched). -/
theorem c2_foreign_passthrough :
    (∀ (f : ForeignExpression), resolveValue (.foreign f) = .str f.raw) ∧
    (∀ (v : Value) (f : ForeignExpression), f ∈ valueForeigns v →
      SegIn f.raw.data (emitR (resolveValue v)).data) :=
  ⟨fun _ => rfl, fun v f h => segIn_emit_value f v h⟩

/-- Witness for C2: the raw `${{ github.run_id }}-${{ github.run_attempt }}`
expression of the MyStack workflow occurs verbatim in the emitted workflow
document. -/
theorem c2_foreign_passthrough_witness :
    SegIn githubRunIdRaw.data (emitR (resolveValue ghaWorkflowValue)).data :=
  c2_foreign_passthrough.2 ghaWorkflowValue ⟨githubRunIdRaw⟩ (by decide)

/-- C7: emission preserves mapping key insertion order exactly as declared
(resolution keeps every mapping's key sequence, and the emitted workflow
document lists its top-level keys, job keys and step keys in declared, not
alphabetical, order) and preserves scalar typing (a numeric literal is
emitted unquoted — quoting it would add exactly the two quote characters —
and a boolean is emitted as the bare word true/false, distinct from the
quoted string "true"). -/
theorem c7_emit_order_and_typing :
    (∀ (kvs : KVList), rkeys (resolveKVs kvs) = vkeys kvs) ∧
    (∀ n : Int, emitR (.num n) = toString n ∧
      scalarForm (.num n) = some (.rnum n) ∧
      (emitR (.str (toString n))).length = (emitR (.num n)).length + 2) ∧
    (emitR (.bool true) = "true" ∧ emitR (.bool false) = "false" ∧
      scalarForm (.bool true) = some (.rbool true) ∧
      emitR (.str "true") = "\"true\"" ∧
      emitR (.bool true) ≠ emitR (.str "true")) ∧
    (topKeys (resolveValue ghaWorkflowValue) = ["name", "on", "jobs"] ∧
      (atKey (resolveValue ghaWorkflowValue) "jobs").map topKeys =
        some ["hello_world"] ∧
      ((atKey (resolveValue ghaWorkflowValue) "jobs").bind
          (fun j => atKey j "hello_world")).map topKeys =
        some ["runs-on", "steps"] ∧
      ((((atKey (resolveValue ghaWorkflowValue) "jobs").bind
          (fun j => atKey j "hello_world")).bind
            (fun j => atKey j "steps")).bind (fun s => atIdx s 0)).map topKeys =
        some ["run"]) ∧
    emitR (resolveValue ghaWorkflowValue) = ghaWorkflowEmitted := by
  refine ⟨rkeys_resolveKVs, ?_, ?_, ⟨rfl, rfl, rfl, rfl⟩, rfl⟩
  · intro n
    refine ⟨rfl, rfl, ?_⟩
    show (("\"" ++ toString n) ++ "\"").length = (toString n).length + 2
    have h1 : ("\"" : String).length = 1 := rfl
    rw [String.length_append, String.length_append, h1]
    omega
  · exact ⟨rfl, rfl, rfl, rfl, by decide⟩

/-- C8: the webhook's `projectName` input and the workflow's `runs-on` label
both derive from the one Token of the CodeBuild project's `name` attribute:
the `runs-on` value stored in the committed workflow document is composed of
"codebuild-", that same Token, "-", and the foreign run-id expression, so in
every resolution the segment after "codebuild-" equals the resolved project
name the webhook (whose filter fires on WORKFLOW_JOB_QUEUED) is attached
to. -/
theorem c8_webhook_runner_label_consistency (ghToken : String) :
    inputOf (myStackTree ghToken) "CodebuildWebhook" "projectName" =
      some (.tok sampleProjectNameTok) ∧
    ((((inputOf (myStackTree ghToken) "CodebuildWebhook" "filterGroup").bind
        (fun v => vAtIdx v 0)).bind (fun v => vAtKey v "filter")).bind
        (fun v => vAtIdx v 0)).bind (fun v => vAtKey v "pattern") =
      some (vstr "WORKFLOW_JOB_QUEUED") ∧
    (((inputOf (myStackTree ghToken) "GhaWorkflowFile" "content").bind
        (fun v => vAtKey v "jobs")).bind (fun v => vAtKey v "hello_world")).bind
        (fun v => vAtKey v "runs-on") = some runsOnValue ∧
    runsOnValue = .composed [.lit "codebuild-", .tok sampleProjectNameTok,
      .lit "-", .foreign ⟨githubRunIdRaw⟩] ∧
    (∃ s, resolveValue (.tok sampleProjectNameTok) = .str s ∧
      resolveValue runsOnValue =
        .str ("codebuild-" ++ s ++ "-" ++ githubRunIdRaw)) :=
  ⟨rfl, rfl, rfl, rfl, ⟨interp sampleProjectNameTok, rfl, rfl⟩⟩

/-- C9: the committed workflow file and the emitted GhaWorkflowUrl output are
consistent: the RepositoryFile path is ".github/workflows/" followed by
"hello-world.yml", the output URL ends in "/actions/workflows/hello-world.yml",
and both reference the same Repository node "SampleRepo" — the file via its
`name` Token, the URL via its `fullName` Token. -/
theorem c9_workflow_file_and_url (ghToken : String) :
    inputOf (myStackTree ghToken) "GhaWorkflowFile" "file" =
      some (.foreign ⟨workflowFilePath⟩) ∧
    resolveValue (.foreign ⟨workflowFilePath⟩) = .str workflowFilePath ∧
    workflowFilePath = ".github/workflows/" ++ "hello-world.yml" ∧
    inputOf (myStackTree ghToken) "GhaWorkflowFile" "repository" =
      some (.tok ⟨"SampleRepo", "name"⟩) ∧
    inputOf (myStackTree ghToken) "GhaWorkflowUrl" "value" =
      some ghaWorkflowUrlValue ∧
    (∃ u, resolveValue ghaWorkflowUrlValue = .str u ∧
      u = ("https://github.com/" ++ interp ⟨"SampleRepo", "fullName"⟩) ++
          "/actions/workflows/hello-world.yml") ∧
    List.map (fun t => t.ownerResourceId) (valueTokens ghaWorkflowUrlValue) =
      ["SampleRepo"] ∧
    lookupNode (myStackTree ghToken) "SampleRepo" = some sampleRepoNode :=
  ⟨rfl, rfl, rfl, rfl, rfl, ⟨_, rfl, rfl⟩, rfl, rfl⟩

/-- C10: environment validation runs at module load with exactly the list
["GITHUB_TOKEN"]: a stack can only be obtained when validation succeeded, in
which case the validated GITHUB_TOKEN value is passed unchanged as the
CodebuildSourceCredential's `token` input, with authType
"PERSONAL_ACCESS_TOKEN" and serverType "GITHUB"; when validation fails, no
stack is constructed. -/
theorem c10_env_validation :
    requiredEnvNames = ["GITHUB_TOKEN"] ∧
    (∀ (env : List (String × String)) (tree : ConstructTree),
      loadModule env = .ok tree →
      ∃ tv, env.lookup "GITHUB_TOKEN" = some tv ∧
        validateEnv requiredEnvNames env = .ok [("GITHUB_TOKEN", tv)] ∧
        tree = myStackTree tv ∧
        inputOf tree "GithubSourceCredential" "token" = some (vstr tv) ∧
        inputOf tree "GithubSourceCredential" "authType" =
          some (vstr "PERSONAL_ACCESS_TOKEN") ∧
        inputOf tree "GithubSourceCredential" "serverType" =
          some (vstr "GITHUB")) ∧
    (∀ (env : List (String × String)) (m : List String),
      validateEnv requiredEnvNames env = .error m →
      ∀ t, loadModule env ≠ .ok t) := by
  refine ⟨rfl, ?_, ?_⟩
  · intro env tree h
    cases hl : env.lookup "GITHUB_TOKEN" with
    | none =>
      have hv : validateEnv requiredEnvNames env =
          .error ["GITHUB_TOKEN"] := by
        simp [validateEnv, requiredEnvNames, hl]
      simp [loadModule, hv] at h
    | some tv =>
      have hv : validateEnv requiredEnvNames env =
          .ok [("GITHUB_TOKEN", tv)] := by
        simp [validateEnv, requiredEnvNames, hl]
      have htree : tree = myStackTree tv := by
        have := h
        rw [loadModule, hv] at this
        simpa using this.symm
      subst htree
      exact ⟨tv, rfl, hv, rfl, rfl, rfl, rfl⟩
  · intro env m hv t
    simp [loadModule, hv]

/-- Witness for C10: module load with GITHUB_TOKEN present yields the stack
built from that exact token value. -/
theorem c10_env_validation_witness :
    ∃ tv, [("GITHUB_TOKEN", "gh-token-value")].lookup "GITHUB_TOKEN" = some tv ∧
      validateEnv requiredEnvNames [("GITHUB_TOKEN", "gh-token-value")] =
        .ok [("GITHUB_TOKEN", tv)] ∧
      myStackTree "gh-token-value" = myStackTree tv ∧
      inputOf (myStackTree "gh-token-value") "GithubSourceCredential" "token" =
        some (vstr tv) ∧
      inputOf (myStackTree "gh-token-value") "GithubSourceCredential" "authType" =
        some (vstr "PERSONAL_ACCESS_TOKEN") ∧
      inputOf (myStackTree "gh-token-value") "GithubSourceCredential" "serverType" =
        some (vstr "GITHUB") :=
  c10_env_validation.2.1 [("GITHUB_TOKEN", "gh-token-value")]
    (myStackTree "gh-token-value") rfl

end GhaRunners
